import Mathlib

/-!
Verification development for the smart-money / dropping-odds alert engine
(`smart_money_and_dropping_alert.py`).

Modelling conventions:
* Python strings are sequences of Unicode code points, embedded as `List Nat`
  (`PyStr`).  This keeps every operation executable and keeps character
  arithmetic in `Nat`.
* Python `float` values flowing through the numeric pipeline are embedded as
  `ℚ`; divisions in the source are exact in this model (the spec's 1e-9
  tolerance absorbs the rounding difference).
* `None` becomes `Option.none`; a pandas `NaN` cell produced from a `None`
  numeric entry is also modelled as `none` (comparisons with it are `false`,
  matching `NaN >= t` being `False`).
* Fallible code returns `Option`; every function here is total, which is the
  shallow-embedding counterpart of "this code path never raises".
-/

/-- Python string: a list of Unicode code points. -/
abbrev PyStr := List Nat

/-- Code points of a Lean string literal, for readable concrete inputs. -/
def ofStr (s : String) : PyStr := s.data.map Char.toNat

/-- ASCII whitespace recognised by Python's `str.strip` and `\s` (space, tab,
newline, carriage return, vertical tab, form feed). -/
def isPySpace (c : Nat) : Bool :=
  (c == 32) || (c == 9) || (c == 10) || (c == 13) || (c == 11) || (c == 12)

/-- ASCII decimal digit, as matched by `[0-9]` and `\d` on this data. -/
def isDigit (c : Nat) : Bool := (48 ≤ c) && (c ≤ 57)

/-- Python `str.lower` on one code point (ASCII range; the inputs the
normalizer cares about are ASCII team names). -/
def toLowerPy (c : Nat) : Nat := if 65 ≤ c ∧ c ≤ 90 then c + 32 else c

/-- Python `str.lower` over a string. -/
def lowerPy (l : PyStr) : PyStr := l.map toLowerPy

/-- Strip leading whitespace. -/
def lstripPy (l : PyStr) : PyStr := l.dropWhile isPySpace

/-- Strip trailing whitespace. -/
def rstripPy (l : PyStr) : PyStr := (l.reverse.dropWhile isPySpace).reverse

/-- Python `str.strip()`. -/
def stripPy (l : PyStr) : PyStr := rstripPy (lstripPy l)

/-- Python `str.replace(ch, "")`: delete every occurrence of one code point. -/
def removeCh (c : Nat) (l : PyStr) : PyStr := l.filter (fun d => !(d == c))

/-- Guard of `re.sub(r"\s+AB$", "", s)` for a two-letter token `AB`:
the string ends with the two code points `a b` preceded by at least one
whitespace character. -/
def endsSpTok (a b : Nat) (l : PyStr) : Bool :=
  match l.reverse with
  | c2 :: c1 :: c0 :: _ => (c2 == b) && (c1 == a) && isPySpace c0
  | _ => false

/-- Embeds `re.sub(r"\s+AB$", "", s)` for a two-letter token `AB` (the `$`
anchor means at most one match: the trailing whitespace run and the final
token are deleted when present). -/
def subSpTok (a b : Nat) (l : PyStr) : PyStr :=
  if endsSpTok a b l then ((l.reverse.drop 2).dropWhile isPySpace).reverse
  else l

/-- Worker for `collapseWs`, structurally recursive on a fuel argument so the
kernel can evaluate it; every recursive call shortens the list by one, so fuel
equal to the list length never runs out. -/
def collapseWsF : Nat → PyStr → PyStr
  | 0, l => l
  | _, [] => []
  | _ + 1, [c] => [c]
  | fuel + 1, c :: d :: rest =>
    if isPySpace c && isPySpace d then collapseWsF fuel (32 :: rest)
    else c :: collapseWsF fuel (d :: rest)

/-- Embeds `re.sub(r"\s{2,}", " ", s)`: every run of two or more whitespace
characters becomes a single space; an isolated whitespace character (even a
tab) is kept as is. -/
def collapseWs (l : PyStr) : PyStr := collapseWsF l.length l

/-- Embeds `_norm_team` (string branch): strip, lowercase, drop a trailing
`" fc"` token, then a trailing `" cf"` token, then collapse whitespace runs.
The non-string branch of the source returns `""` and is not modelled. -/
def norm_team (l : PyStr) : PyStr :=
  collapseWs (subSpTok 99 102 (subSpTok 102 99 (lowerPy (stripPy l))))

/-- Characters kept by `re.sub(r"[^0-9.\-]", "", s)`. -/
def isNumCh (c : Nat) : Bool := ((48 ≤ c) && (c ≤ 57)) || (c == 46) || (c == 45)

/-- Embeds Python `float(s)` restricted to the character set that survives
`_num`'s cleaning (digits, `.`, `-`): an optional leading minus, then digits
with at most one decimal point and at least one digit; anything else fails
(`none`). -/
def pyFloat (l : PyStr) : Option ℚ :=
  let neg := match l with | 45 :: _ => true | _ => false
  let m := match l with | 45 :: rest => rest | _ => l
  if m.any (fun c => c == 45) then none
  else
    let ip := m.takeWhile isDigit
    let r := m.dropWhile isDigit
    let natVal : PyStr → Nat := fun ds => ds.foldl (fun acc c => acc * 10 + (c - 48)) 0
    match r with
    | [] =>
      if ip = [] then none
      else some (if neg then -(natVal ip : ℚ) else (natVal ip : ℚ))
    | 46 :: fp =>
      if fp.all isDigit then
        if ip = [] ∧ fp = [] then none
        else
          let v : ℚ := (natVal ip : ℚ) + (natVal fp : ℚ) / (10 : ℚ) ^ fp.length
          some (if neg then -v else v)
      else none
    | _ => none

/-- Embeds `_num` on a string input: delete `£` (code 163) and `,`, strip
whitespace, delete every character outside `[0-9.-]`, then parse; empty or
unparsable cleaned text gives `none` (the `except` branch). -/
def _num (l : PyStr) : Option ℚ :=
  let s1 := removeCh 163 l
  let s2 := removeCh 44 s1
  let s3 := stripPy s2
  let s4 := s3.filter isNumCh
  if s4 = [] then none else pyFloat s4

/-- Betting outcome 1 / X / 2, the keys of the `pct_map` / `dm` dictionaries. -/
inductive Sign where
  | one
  | x
  | two
deriving DecidableEq, Repr

/-- Key function of the Python `max` call: a missing percentage counts as
`-1` (`pct_map[k] if pct_map[k] is not None else -1`). -/
def keyV (v : Option ℚ) : ℚ := match v with | some q => q | none => -1

/-- Embeds the dominant-outcome selection shared by `fetch_moneyway`
(`smart_sign`/`smart_pct`) and `fetch_dropping` (`drop_sign`/`drop_pct`):
when all three values are `None` both results are `None`; otherwise Python's
`max` over the dict keys `"1", "X", "2"` (insertion order, first maximal key
wins, `None` replaced by `-1`) picks the sign, and the dict value at that
sign (which may itself be `None`) is the percentage. -/
def dominant (p1 px p2 : Option ℚ) : Option Sign × Option ℚ :=
  if p1 = none ∧ px = none ∧ p2 = none then (none, none)
  else
    let b1 := if keyV px > keyV p1 then Sign.x else Sign.one
    let v1 := if keyV px > keyV p1 then keyV px else keyV p1
    let best := if keyV p2 > v1 then Sign.two else b1
    (some best, match best with | .one => p1 | .x => px | .two => p2)

/-- Embeds the nested `drop_pct(o, n)` of `fetch_dropping`: `None` when either
price is missing or the opening price is zero, else `(o - n) / o * 100`. -/
def drop_pct (o n : Option ℚ) : Option ℚ :=
  match o, n with
  | some ov, some nv => if ov = 0 then none else some ((ov - nv) / ov * 100)
  | _, _ => none

/-- Pandas comparison of a possibly-missing percentage column with a scalar
threshold: a missing value (NaN after DataFrame construction) compares
`False`. -/
def oge (v : Option ℚ) (t : ℚ) : Bool :=
  match v with
  | some q => decide (t ≤ q)
  | none => false

/-- Embeds the alert condition `cond` of `build_app` on one merged row:
`(smart_sign == drop_sign) & (smart_pct >= smart_th) & (drop_pct >= drop_th)`.
Sign equality follows pandas object equality (`None == None` is `True`). -/
def alertCond (ss ds : Option Sign) (sp dp : Option ℚ) (sth dth : ℚ) : Bool :=
  decide (ss = ds) && oge sp sth && oge dp dth

/-- Attempts to match the regex `(\d+(?:\.\d+)?)\s*%` at the start of the
string: a maximal digit run, an optional fractional part (a dot followed by a
nonempty maximal digit run), optional whitespace, then `%`.  Returns the
captured group together with the text after the match.  Backtracking cannot
produce a match the greedy reading misses, because shortening a maximal
digit run leaves a digit where `%` would have to be. -/
def pctMatchAt (l : PyStr) : Option (PyStr × PyStr) :=
  let d1 := l.takeWhile isDigit
  let r1 := l.dropWhile isDigit
  if d1 = [] then none
  else
    let cap_r2 : PyStr × PyStr :=
      match r1 with
      | 46 :: r =>
        let d2 := r.takeWhile isDigit
        if d2 = [] then (d1, r1) else (d1 ++ 46 :: d2, r.dropWhile isDigit)
      | _ => (d1, r1)
    match cap_r2.2.dropWhile isPySpace with
    | 37 :: rest => some (cap_r2.1, rest)
    | _ => none

/-- Worker for `pctFindAll` with fuel for structural recursion; every step
consumes at least one character, so fuel equal to the text length suffices. -/
def pctFindAllF : Nat → PyStr → List PyStr
  | 0, _ => []
  | _ + 1, [] => []
  | fuel + 1, c :: rest =>
    match pctMatchAt (c :: rest) with
    | some (cap, r) => cap :: pctFindAllF fuel r
    | none => pctFindAllF fuel rest

/-- Embeds `pct_re.findall(mid)` for `pct_re = (\d+(?:\.\d+)?)\s*%`: scan left
to right, collect each leftmost non-overlapping match's captured group and
resume after the `%`. -/
def pctFindAll (l : PyStr) : List PyStr := pctFindAllF l.length l

/-- Embeds `" ".join(parts)`. -/
def joinSp (parts : List PyStr) : PyStr := List.intercalate [32] parts

/-- One decoded Moneyway row (`fetch_moneyway`'s per-`tr` record). -/
structure MWRow where
  league : PyStr
  date : PyStr
  time : PyStr
  home : PyStr
  away : Option PyStr
  odds1 : Option ℚ
  oddsx : Option ℚ
  odds2 : Option ℚ
  pct1 : Option ℚ
  pctx : Option ℚ
  pct2 : Option ℚ
  smart_sign : Option Sign
  smart_pct : Option ℚ
  volume : Option ℚ
deriving DecidableEq, Repr

/-- One decoded Dropping-odds row (`fetch_dropping`'s per-`tr` record). -/
structure DRRow where
  league : PyStr
  date : PyStr
  time : PyStr
  home : PyStr
  away : Option PyStr
  odds1_open : Option ℚ
  odds1_now : Option ℚ
  oddsx_open : Option ℚ
  oddsx_now : Option ℚ
  odds2_open : Option ℚ
  odds2_now : Option ℚ
  drop1 : Option ℚ
  dropx : Option ℚ
  drop2 : Option ℚ
  drop_sign : Option Sign
  drop_pctv : Option ℚ
  volume : Option ℚ
deriving DecidableEq, Repr

/-- The guarded numeric cell lookup `fnum(i)` shared by both row loops:
`_num(txt[i]) if i < len(txt) else None` (the `try`/`except` around it can
never fire in this model because every piece is total). -/
def fnum (txt : List PyStr) (i : Nat) : Option ℚ :=
  if i < txt.length then _num (txt.getD i []) else none

/-- Embeds the body of `fetch_moneyway`'s row loop for a single `tr`: rows
with fewer than 10 cells are skipped (`none`); otherwise the fixed positional
cells, the regex-derived percentages over the joined slice `txt[4:12]`, the
last-two-cell `away`/`volume` anchors and the dominant sign are produced.
Unchecked index accesses (`txt[0]`..`txt[3]`) are modelled with `getElem?`;
the fall-through `none` is the would-be `IndexError`. -/
def decodeMW (txt : List PyStr) : Option MWRow :=
  if txt.length < 10 then none
  else
    match txt[0]?, txt[1]?, txt[2]?, txt[3]? with
    | some league, some date, some time_, some home =>
      let odds1 := fnum txt 4
      let oddsx := fnum txt 5
      let odds2 := fnum txt 6
      let mid := joinSp ((txt.drop 4).take 8)
      let pcts := pctFindAll mid
      let pct1 := if 1 ≤ pcts.length then _num (pcts.getD 0 []) else none
      let pctx := if 2 ≤ pcts.length then _num (pcts.getD 1 []) else none
      let pct2 := if 3 ≤ pcts.length then _num (pcts.getD 2 []) else none
      let away := if 2 ≤ txt.length then some (txt.getD (txt.length - 2) []) else none
      let volume := if 1 ≤ txt.length then _num (txt.getD (txt.length - 1) []) else none
      let sm := dominant pct1 pctx pct2
      some ⟨league, date, time_, home, away, odds1, oddsx, odds2,
            pct1, pctx, pct2, sm.1, sm.2, volume⟩
    | _, _, _, _ => none

/-- Embeds the body of `fetch_dropping`'s row loop for a single `tr`,
analogously to `decodeMW`: skip short rows, read the three open/now odds
pairs from cells 4..9, derive the per-outcome drop percentages and the
dominant drop sign. -/
def decodeDR (txt : List PyStr) : Option DRRow :=
  if txt.length < 10 then none
  else
    match txt[0]?, txt[1]?, txt[2]?, txt[3]? with
    | some league, some date, some time_, some home =>
      let odds1_open := fnum txt 4
      let odds1_now := fnum txt 5
      let oddsx_open := fnum txt 6
      let oddsx_now := fnum txt 7
      let odds2_open := fnum txt 8
      let odds2_now := fnum txt 9
      let away := if 2 ≤ txt.length then some (txt.getD (txt.length - 2) []) else none
      let volume := if 1 ≤ txt.length then _num (txt.getD (txt.length - 1) []) else none
      let drop1 := drop_pct odds1_open odds1_now
      let dropx := drop_pct oddsx_open oddsx_now
      let drop2 := drop_pct odds2_open odds2_now
      let dm := dominant drop1 dropx drop2
      some ⟨league, date, time_, home, away, odds1_open, odds1_now, oddsx_open,
            oddsx_now, odds2_open, odds2_now, drop1, dropx, drop2,
            dm.1, dm.2, volume⟩
    | _, _, _, _ => none

/-- The first `<table>` of a fetched page, as far as the scraper looks at it:
its header cells (`<th>` texts) and its `tbody` rows, each a list of `<td>`
cell texts. -/
structure HtmlTable where
  headers : List PyStr
  body : List (List PyStr)
deriving DecidableEq, Repr

/-- Embeds the extraction part of `fetch_moneyway` after the page text is in
hand: `soup.find("table")` returning nothing gives an empty result, otherwise
every `tbody tr` is decoded positionally by `decodeMW` (short rows skipped).
The header cells of the table are never consulted.  Every step is total, so
no exception can escape this stage. -/
def fetchRowsMW (doc : Option HtmlTable) : List MWRow :=
  match doc with
  | none => []
  | some t => t.body.filterMap decodeMW

/-- Embeds the extraction part of `fetch_dropping` after the page text is in
hand, analogous to `fetchRowsMW`. -/
def fetchRowsDR (doc : Option HtmlTable) : List DRRow :=
  match doc with
  | none => []
  | some t => t.body.filterMap decodeDR

/-- Decidable substring test used by the spec-modelled header heuristics. -/
def containsSub (needle hay : PyStr) : Bool :=
  (List.range (hay.length + 1)).any (fun i => needle.isPrefixOf (hay.drop i))

/-- Modelled from the spec: the dominant-outcome selection as §3/§8 state it —
the maximum over the non-null percentages with ties broken by enumeration
order 1, X, 2, paired with that maximal value; both `none` when all three are
null.  This is the comparison target for the selection the source implements. -/
def specDominant (p1 px p2 : Option ℚ) : Option Sign × Option ℚ :=
  let cands := [(Sign.one, p1), (Sign.x, px), (Sign.two, p2)].filterMap
    (fun sp => sp.2.map (fun v => (sp.1, v)))
  match cands with
  | [] => (none, none)
  | c :: rest =>
    let m := rest.foldl (fun best nxt => if nxt.2 > best.2 then nxt else best) c
    (some m.1, some m.2)

/-- Modelled from the spec: the schema-assisted (header-mapping) extraction
strategy of §4.2, which has no counterpart in the source.  Headers are
matched case-insensitively by the spec's keyword heuristics (a header
containing "home" is the home-team column, one containing "away" the
away-team column, similarly "league"/"date"/"time"; a header that is exactly
"1" is the first-outcome odds column, and a header containing both "%" and
"1" the first-outcome percentage column, likewise for "x" and "2").  The
strategy succeeds when at least the home and away columns are recognized and
then produces typed entities directly from the mapped cells, with the
dominant fields computed by the spec's selection rule. -/
def schemaAssisted (t : HtmlTable) : Option (List MWRow) :=
  let hs := t.headers.map lowerPy
  let idxOf := fun (p : PyStr → Bool) => (hs.findIdx? p)
  let homeIdx := idxOf (containsSub (ofStr "home"))
  let awayIdx := idxOf (containsSub (ofStr "away"))
  match homeIdx, awayIdx with
  | some hi, some ai =>
    let leagueIdx := idxOf (containsSub (ofStr "league"))
    let dateIdx := idxOf (containsSub (ofStr "date"))
    let timeIdx := idxOf (containsSub (ofStr "time"))
    let oddsIdx := fun (d : Nat) => idxOf (fun h => h == [d])
    let pctIdx := fun (d : Nat) =>
      idxOf (fun h => containsSub [37] h && containsSub [d] h)
    let cell := fun (row : List PyStr) (oi : Option Nat) =>
      match oi with | some i => row.getD i [] | none => []
    let numCell := fun (row : List PyStr) (oi : Option Nat) =>
      match oi with | some i => _num (row.getD i []) | none => none
    some (t.body.map (fun row =>
      let pct1 := numCell row (pctIdx 49)
      let pctx := numCell row (pctIdx 120)
      let pct2 := numCell row (pctIdx 50)
      let sm := specDominant pct1 pctx pct2
      ⟨cell row leagueIdx, cell row dateIdx, cell row timeIdx, cell row (some hi),
       some (cell row (some ai)), numCell row (oddsIdx 49),
       numCell row (oddsIdx 120), numCell row (oddsIdx 50),
       pct1, pctx, pct2, sm.1, sm.2, none⟩))
  | _, _ => none

/-- Modelled from the spec: the two-strategy extract operation of §4.2 — try
the schema-assisted strategy first, and on its failure fall back to the
layout-agnostic positional strategy; an absent table yields an empty
sequence. -/
def extractTwoStrategy (doc : Option HtmlTable) : List MWRow :=
  match doc with
  | none => []
  | some t =>
    match schemaAssisted t with
    | some rows => rows
    | none => t.body.filterMap decodeMW

/-- Embeds the match key `_match_key` of one Moneyway row, with the date
normalization `_extract_date` (a delegation to `pandas.to_datetime`) supplied
as a parameter `dn`. -/
def matchKeyMW (dn : PyStr → PyStr) (r : MWRow) : PyStr × PyStr × PyStr :=
  (dn r.date, norm_team r.home, norm_team (r.away.getD []))

/-- Embeds the match key `_match_key` of one Dropping-odds row, with the date
normalization supplied as a parameter `dn`. -/
def matchKeyDR (dn : PyStr → PyStr) (r : DRRow) : PyStr × PyStr × PyStr :=
  (dn r.date, norm_team r.home, norm_team (r.away.getD []))

/-- Embeds `mw.merge(dr, on="match_key", how="inner")` with `sort=False`:
for each left row in feed order, every right row with the same key in feed
order; rows without a counterpart contribute nothing. -/
def innerJoin {α β κ : Type} [DecidableEq κ]
    (kl : α → κ) (kr : β → κ) (L : List α) (R : List β) : List (α × β) :=
  L.flatMap (fun a => (R.filter (fun b => decide (kl a = kr b))).map (fun b => (a, b)))

/-- Embeds the alert condition of `build_app` on one merged Moneyway ×
Dropping-odds row. -/
def alertCondRow (p : MWRow × DRRow) (sth dth : ℚ) : Bool :=
  alertCond p.1.smart_sign p.2.drop_sign p.1.smart_pct p.2.drop_pctv sth dth

/-- Embeds `alerts = merged.loc[cond]`: the merged rows passing the alert
condition, in merged order. -/
def cycleAlerts (pairs : List (MWRow × DRRow)) (sth dth : ℚ) : List (MWRow × DRRow) :=
  pairs.filter (fun p => alertCondRow p sth dth)

/-- Embeds the dispatch loop of `build_app` (one refresh cycle) iterated over
consecutive refresh cycles: each cycle recomputes its alert rows and calls
`send_telegram` once per alert row; the source keeps no state between cycles
(`build_app` has no session state and no module-level set), so the dispatched
messages are simply concatenated cycle after cycle.  The result lists one
entry per `send_telegram` invocation. -/
def runDispatch (cycles : List (List (MWRow × DRRow))) (sth dth : ℚ) :
    List (MWRow × DRRow) :=
  cycles.flatMap (fun pairs => cycleAlerts pairs sth dth)

/-- Concrete decoded Moneyway row used in concrete instantiations: dominant
outcome home at 92%, mirroring the spec's walk-through scenario. -/
def exMW : MWRow :=
  ⟨ofStr "EPL", ofStr "28 Oct", ofStr "20:00", ofStr "arsenal",
   some (ofStr "chelsea"), none, none, none,
   some 92, some 5, some 3, some Sign.one, some 92, none⟩

/-- Concrete decoded Dropping-odds row used in concrete instantiations:
dominant drop outcome home at 9%. -/
def exDR : DRRow :=
  ⟨ofStr "EPL", ofStr "28 Oct", ofStr "20:00", ofStr "arsenal",
   some (ofStr "chelsea"), none, none, none, none, none, none,
   some 9, some 1, some 0, some Sign.one, some 9, none⟩

/-- Concrete fetched table whose headers the spec's schema-assisted strategy
recognizes (home and away columns present) but whose single body row has
fewer than 10 cells, so the positional strategy skips it. -/
def exDoc : HtmlTable :=
  ⟨[ofStr "League", ofStr "Date", ofStr "Time", ofStr "Home", ofStr "Away"],
   [[ofStr "L1", ofStr "1 Jan", ofStr "12:00", ofStr "Alpha", ofStr "Beta"]]⟩

/-- Concrete ten-cell raw row (all cells empty) for totality instantiations. -/
def exTxt10 : List PyStr := List.replicate 10 []

/-- Rows shorter than the 10-cell minimum are skipped by the positional
decoder. -/
theorem decodeMW_short (txt : List PyStr) (h : txt.length < 10) :
    decodeMW txt = none := by
  simp [decodeMW, h]

/-- Rows shorter than the 10-cell minimum are skipped by the dropping-odds
decoder. -/
theorem decodeDR_short (txt : List PyStr) (h : txt.length < 10) :
    decodeDR txt = none := by
  simp [decodeDR, h]

/-- A decoder that rejects short rows can be preceded by the corresponding
length filter without changing the extracted sequence. -/
theorem filterMap_filter_body {α : Type} (f : List PyStr → Option α)
    (hf : ∀ r : List PyStr, r.length < 10 → f r = none)
    (body : List (List PyStr)) :
    body.filterMap f = (body.filter (fun r => decide (10 ≤ r.length))).filterMap f := by
  induction body with
  | nil => rfl
  | cons r t ih =>
    by_cases h : 10 ≤ r.length
    · simp [List.filter_cons, h, List.filterMap_cons, ih]
    · have hr := hf r (by omega)
      simp [List.filter_cons, h, List.filterMap_cons, hr, ih]

/-- C7: the per-outcome drop percentage is null exactly when the opening or
current price is null or the opening price is zero, and otherwise equals
`(open - now) / open * 100` (exactly, in the rational model). -/
theorem drop_pct_null_iff (o n : Option ℚ) :
    (drop_pct o n = none ↔ o = none ∨ n = none ∨ o = some 0) ∧
    (∀ a b : ℚ, o = some a → n = some b → a ≠ 0 →
      drop_pct o n = some ((a - b) / a * 100)) := by
  constructor
  · cases o with
    | none => simp [drop_pct]
    | some a =>
      cases n with
      | none => simp [drop_pct]
      | some b => by_cases h : a = 0 <;> simp [drop_pct, h]
  · intro a b ho hn ha
    subst ho; subst hn
    simp [drop_pct, ha]

/-- Witness for `drop_pct_null_iff`: a concrete non-null division,
open 2.0 and now 1.0 giving a 50% drop. -/
theorem drop_pct_null_iff_witness :
    drop_pct (some 2) (some 1) = some ((2 - 1) / 2 * 100) :=
  (drop_pct_null_iff (some 2) (some 1)).2 2 1 rfl rfl (by norm_num)

/-- C1 counterexample: a pair that satisfies the alert predicate and is
presented in two consecutive refresh cycles triggers two `send_telegram`
invocations — one per cycle — not one; the source keeps no de-duplication
state between cycles. -/
theorem dispatch_dedup_cex :
    alertCondRow (exMW, exDR) 90 7 = true ∧
    (runDispatch [[(exMW, exDR)], [(exMW, exDR)]] 90 7).length = 2 ∧
    (runDispatch [[(exMW, exDR)], [(exMW, exDR)]] 90 7).length ≠ 1 := by
  have h : alertCondRow (exMW, exDR) 90 7 = true := by
    norm_num [alertCondRow, alertCond, oge, exMW, exDR]
  refine ⟨h, ?_, ?_⟩ <;>
    simp [runDispatch, cycleAlerts, List.filter_cons, h]

/-- C1 amended: dispatch is stateless across refresh cycles — the number of
notification calls is the sum of the per-cycle alert counts (so a condition
that stays true over two cycles is dispatched in both), and two consecutive
cycles dispatch exactly the concatenation of their per-cycle alert lists. -/
theorem dispatch_stateless (cycles : List (List (MWRow × DRRow))) (sth dth : ℚ) :
    (runDispatch cycles sth dth).length
      = (cycles.map (fun c => (cycleAlerts c sth dth).length)).sum ∧
    (∀ c1 c2, runDispatch [c1, c2] sth dth
      = cycleAlerts c1 sth dth ++ cycleAlerts c2 sth dth) := by
  constructor
  · induction cycles with
    | nil => rfl
    | cons c t ih => simp [runDispatch, List.flatMap_cons] at ih ⊢; simp [ih]
  · intro c1 c2
    simp [runDispatch]

/-- C2 counterexample: on a table whose headers the spec's schema-assisted
strategy recognizes but whose row is too short for the positional strategy,
the source's extraction (which never consults headers) returns the empty
sequence while the spec's two-strategy extraction returns one entity: the
source does not implement a header-mapping first strategy. -/
theorem extract_two_strategy_cex :
    fetchRowsMW (some exDoc) = [] ∧
    (extractTwoStrategy (some exDoc)).length = 1 ∧
    fetchRowsMW (some exDoc) ≠ extractTwoStrategy (some exDoc) := by
  refine ⟨rfl, rfl, ?_⟩
  intro h
  have h2 := congrArg List.length h
  rw [show fetchRowsMW (some exDoc) = [] from rfl] at h2
  rw [show (extractTwoStrategy (some exDoc)).length = 1 from rfl] at h2
  exact absurd h2 (by decide)

/-- C2 amended: extraction applies the single layout-agnostic positional
strategy only — the table headers never influence the result, a missing
table yields the empty sequence, and the result is exactly the positional
decode of the rows meeting the 10-cell minimum (extraction is total, so no
exception can escape it). -/
theorem extract_positional_only (hs1 hs2 : List PyStr) (body : List (List PyStr)) :
    fetchRowsMW (some ⟨hs1, body⟩) = fetchRowsMW (some ⟨hs2, body⟩) ∧
    fetchRowsMW none = [] ∧
    fetchRowsMW (some ⟨hs1, body⟩)
      = (body.filter (fun r => decide (10 ≤ r.length))).filterMap decodeMW :=
  ⟨rfl, rfl, filterMap_filter_body decodeMW (fun r hr => decodeMW_short r hr) body⟩

/-- C9: row decoding is total for both feeds — any row with fewer than 10
cells is skipped, and on any row with at least 10 cells every positional
access succeeds (indices 0–3 exist, the last-two-cell anchors are defined,
and out-of-range numeric lookups are guarded), so a row is always decoded
without error. -/
theorem decode_total (txt : List PyStr) :
    (txt.length < 10 → decodeMW txt = none ∧ decodeDR txt = none) ∧
    (10 ≤ txt.length →
      (∃ r, decodeMW txt = some r ∧ r.away.isSome) ∧
      (∃ r, decodeDR txt = some r ∧ r.away.isSome)) := by
  constructor
  · intro h
    exact ⟨decodeMW_short txt h, decodeDR_short txt h⟩
  · intro h
    have h0 : txt[0]? = some txt[0] := List.getElem?_eq_getElem (by omega)
    have h1 : txt[1]? = some txt[1] := List.getElem?_eq_getElem (by omega)
    have h2 : txt[2]? = some txt[2] := List.getElem?_eq_getElem (by omega)
    have h3 : txt[3]? = some txt[3] := List.getElem?_eq_getElem (by omega)
    have hlt : ¬ txt.length < 10 := by omega
    have haway : 2 ≤ txt.length := by omega
    constructor
    · rw [decodeMW, if_neg hlt, h0, h1, h2, h3]
      refine ⟨_, rfl, ?_⟩
      simp [haway]
    · rw [decodeDR, if_neg hlt, h0, h1, h2, h3]
      refine ⟨_, rfl, ?_⟩
      simp [haway]

/-- Witness for `decode_total`: a concrete ten-cell row is decoded by both
decoders with a defined away cell. -/
theorem decode_total_witness :
    (∃ r, decodeMW exTxt10 = some r ∧ r.away.isSome) ∧
    (∃ r, decodeDR exTxt10 = some r ∧ r.away.isSome) :=
  (decode_total exTxt10).2 (by decide)

/-- Membership in the inner equi-join: a pair occurs exactly when both
components occur in their feeds with equal keys. -/
theorem innerJoin_mem {α β κ : Type} [DecidableEq κ] (kl : α → κ) (kr : β → κ)
    (L : List α) (R : List β) (p : α × β) :
    p ∈ innerJoin kl kr L R ↔ p.1 ∈ L ∧ p.2 ∈ R ∧ kl p.1 = kr p.2 := by
  rcases p with ⟨a, b⟩
  simp only [innerJoin, List.mem_flatMap, List.mem_map, List.mem_filter,
    decide_eq_true_eq, Prod.mk.injEq]
  constructor
  · rintro ⟨a', ha', b', ⟨hb', hk⟩, rfl, rfl⟩
    exact ⟨ha', hb', hk⟩
  · rintro ⟨ha, hb, hk⟩
    exact ⟨a, ha, b, ⟨hb, hk⟩, rfl, rfl⟩

/-- The inner join lists the key-equal pairs of the cross product in its
order: left feed order, nested by right feed order. -/
theorem innerJoin_eq_filter {α β κ : Type} [DecidableEq κ] (kl : α → κ) (kr : β → κ)
    (L : List α) (R : List β) :
    innerJoin kl kr L R
      = (L.flatMap (fun a => R.map (fun b => (a, b)))).filter
          (fun p => decide (kl p.1 = kr p.2)) := by
  induction L with
  | nil => rfl
  | cons a t ih =>
    simp only [innerJoin, List.flatMap_cons, List.filter_append] at ih ⊢
    rw [ih, List.filter_map]
    rfl

/-- C5: correlation is an inner equi-join on the normalized match key — a
row occurs in a pair iff a key-equal counterpart exists (so unmatched rows
never appear, and key groups contribute their full cross product), and the
output is exactly the key-equal sub-sequence of the left-nested-right cross
product, which fixes the deterministic output order. -/
theorem correlate_equijoin (dn : PyStr → PyStr) (L : List MWRow) (R : List DRRow) :
    (∀ p : MWRow × DRRow,
      p ∈ innerJoin (matchKeyMW dn) (matchKeyDR dn) L R ↔
        p.1 ∈ L ∧ p.2 ∈ R ∧ matchKeyMW dn p.1 = matchKeyDR dn p.2) ∧
    innerJoin (matchKeyMW dn) (matchKeyDR dn) L R
      = (L.flatMap (fun a => R.map (fun b => (a, b)))).filter
          (fun p => decide (matchKeyMW dn p.1 = matchKeyDR dn p.2)) ∧
    (∀ a ∈ L, (∀ b ∈ R, matchKeyMW dn a ≠ matchKeyDR dn b) →
      ∀ p ∈ innerJoin (matchKeyMW dn) (matchKeyDR dn) L R, p.1 ≠ a) := by
  refine ⟨innerJoin_mem _ _ L R, innerJoin_eq_filter _ _ L R, ?_⟩
  intro a _ hnone p hp heq
  obtain ⟨_, hbR, hk⟩ := (innerJoin_mem _ _ L R p).mp hp
  exact hnone p.2 hbR (heq ▸ hk)

/-- Witness for `correlate_equijoin`: the concrete key-equal pair from the
two example rows is a member of their join. -/
theorem correlate_equijoin_witness :
    (exMW, exDR) ∈ innerJoin (matchKeyMW id) (matchKeyDR id) [exMW] [exDR] :=
  ((correlate_equijoin id [exMW] [exDR]).1 (exMW, exDR)).mpr
    ⟨by simp, by simp, rfl⟩

/-- Pandas threshold comparison succeeds exactly on a present value at or
above the threshold. -/
theorem oge_iff (v : Option ℚ) (t : ℚ) : oge v t = true ↔ ∃ q, v = some q ∧ t ≤ q := by
  cases v <;> simp [oge]

/-- When the dominant selection produces a percentage, it also produced a
sign (only the all-null branch returns a null sign). -/
theorem dominant_fst_of_snd (a x b : Option ℚ) (p : ℚ)
    (h : (dominant a x b).2 = some p) : ∃ s, (dominant a x b).1 = some s := by
  by_cases hg : a = none ∧ x = none ∧ b = none
  · rw [dominant, if_pos hg] at h
    simp at h
  · rw [dominant, if_neg hg]
    exact ⟨_, rfl⟩

/-- C4: on a correlated pair (whose sign/percentage fields are the dominant
selections of the two decoded rows) the alert condition holds iff the two
dominant signs agree and are non-null, the dominant smart percentage meets
the smart-money threshold, and the dominant drop percentage meets the
dropping threshold; falsifying any one conjunct removes the pair from the
alert set. -/
theorem alert_pred_iff (a x b c y d : Option ℚ) (sth dth : ℚ) :
    alertCond (dominant a x b).1 (dominant c y d).1 (dominant a x b).2
      (dominant c y d).2 sth dth = true ↔
    ∃ s p q, (dominant a x b).1 = some s ∧ (dominant c y d).1 = some s ∧
      (dominant a x b).2 = some p ∧ sth ≤ p ∧
      (dominant c y d).2 = some q ∧ dth ≤ q := by
  unfold alertCond
  simp only [Bool.and_eq_true, decide_eq_true_eq, oge_iff]
  constructor
  · rintro ⟨⟨hsd, p, hp, hps⟩, q, hq, hqs⟩
    obtain ⟨s, hs⟩ := dominant_fst_of_snd a x b p hp
    exact ⟨s, p, q, hs, hsd ▸ hs, hp, hps, hq, hqs⟩
  · rintro ⟨s, p, q, h1, h2, h3, h4, h5, h6⟩
    exact ⟨⟨h1.trans h2.symm, p, h3, h4⟩, q, h5, h6⟩

/-- Dropping a prefix of characters that a filter would reject anyway does
not change the filtered result. -/
theorem filter_dropWhile_disj {p q : Nat → Bool} (h : ∀ c, p c = true → q c = false)
    (l : PyStr) : (l.dropWhile p).filter q = l.filter q := by
  induction l with
  | nil => rfl
  | cons a t ih =>
    by_cases hp : p a = true
    · simp [List.dropWhile_cons, hp, List.filter_cons, h a hp, ih]
    · simp [List.dropWhile_cons, hp]

/-- Stripping surrounding whitespace commutes away under a whitespace-
rejecting filter. -/
theorem filter_stripPy_disj {q : Nat → Bool} (h : ∀ c, isPySpace c = true → q c = false)
    (l : PyStr) : (stripPy l).filter q = l.filter q := by
  unfold stripPy rstripPy lstripPy
  rw [List.filter_reverse, filter_dropWhile_disj h, List.filter_reverse,
    List.reverse_reverse, filter_dropWhile_disj h]

/-- Deleting one character value commutes away under a filter that rejects
that value. -/
theorem filter_removeCh_disj {q : Nat → Bool} {c : Nat}
    (h : ∀ a, q a = true → (a == c) = false) (l : PyStr) :
    (removeCh c l).filter q = l.filter q := by
  unfold removeCh
  rw [List.filter_filter]
  apply List.filter_congr
  intro a _
  by_cases hq : q a = true
  · simp [hq, h a hq]
  · have hq2 : q a = false := by revert hq; cases q a <;> simp
    simp [hq2]

/-- Whitespace characters are not numeric characters. -/
theorem sp_not_num : ∀ c, isPySpace c = true → isNumCh c = false := by
  intro c
  simp [isPySpace, isNumCh]
  omega

/-- The pound sign is not a numeric character. -/
theorem num_ne_163 : ∀ a, isNumCh a = true → (a == 163) = false := by
  intro a
  simp [isNumCh]
  omega

/-- The comma is not a numeric character. -/
theorem num_ne_44 : ∀ a, isNumCh a = true → (a == 44) = false := by
  intro a
  simp [isNumCh]
  omega

/-- C8: the number parser is total (it returns a float or null, never an
error), its currency/comma/whitespace stripping collapses to keeping exactly
the characters in `[0-9.-]` — so on any decorated numeric text it returns
the same value as the cleaned numeric string — and empty or unparsable
cleaned input yields null, as the concrete instances illustrate. -/
theorem _num_eq_clean :
    (∀ l : PyStr, _num l =
      if l.filter isNumCh = [] then none else pyFloat (l.filter isNumCh)) ∧
    _num (ofStr "£1,234.50") = some (2469 / 2) ∧
    _num (ofStr " -3.25 ") = some (-13 / 4) ∧
    _num (ofStr "abc") = none ∧
    _num (ofStr "") = none := by
  refine ⟨?_, ?_, ?_, rfl, rfl⟩
  · intro l
    show (if ((stripPy (removeCh 44 (removeCh 163 l))).filter isNumCh) = [] then none
      else pyFloat ((stripPy (removeCh 44 (removeCh 163 l))).filter isNumCh))
      = if l.filter isNumCh = [] then none else pyFloat (l.filter isNumCh)
    rw [filter_stripPy_disj sp_not_num, filter_removeCh_disj num_ne_44,
      filter_removeCh_disj num_ne_163]
  · rw [show ofStr "£1,234.50" = [163,49,44,50,51,52,46,53,48] from rfl]
    simp [_num, removeCh, stripPy, lstripPy, rstripPy, pyFloat, isNumCh, isDigit, isPySpace,
      List.dropWhile, List.takeWhile, List.filter]
    norm_num
  · rw [show ofStr " -3.25 " = [32,45,51,46,50,53,32] from rfl]
    simp [_num, removeCh, stripPy, lstripPy, rstripPy, pyFloat, isNumCh, isDigit, isPySpace,
      List.dropWhile, List.takeWhile, List.filter]
    norm_num

/-- C3 counterexample: a reachable drop triple (open 1.0, now 1.05 gives a
-5% drop; the other two outcomes unparsed) makes the selection return
outcome X with a null percentage, because `None` is substituted by `-1` in
the ordering — not outcome 1 with its value -5 as the claim's
max-over-non-null rule demands. -/
theorem dominant_null_sub_cex :
    drop_pct (some 1) (some (21/20)) = some (-5) ∧
    dominant (some (-5)) none none = (some Sign.x, none) ∧
    specDominant (some (-5)) none none = (some Sign.one, some (-5)) ∧
    dominant (some (-5)) none none ≠ specDominant (some (-5)) none none := by
  have h1 : dominant (some (-5)) none none = (some Sign.x, none) := by
    rw [dominant, if_neg (by simp)]
    norm_num [keyV]
  have h2 : specDominant (some (-5 : ℚ)) none none = (some Sign.one, some (-5)) := rfl
  refine ⟨?_, h1, h2, ?_⟩
  · norm_num [drop_pct]
  · rw [h1, h2]
    intro h
    have h3 := congrArg Prod.fst h
    simp at h3

/-- C3 amended: whenever every non-null value of the triple exceeds -1 — in
particular for all signal percentages, which are non-negative — the
selection agrees with the spec's rule: the maximum over the non-null values
wins, ties break in enumeration order 1, X, 2, the selected value is
returned with the sign, and an all-null triple yields a null sign and null
percentage. -/
theorem dominant_spec_of_pos (a x b : Option ℚ)
    (ha : ∀ v, a = some v → -1 < v)
    (hx : ∀ v, x = some v → -1 < v)
    (hb : ∀ v, b = some v → -1 < v) :
    dominant a x b = specDominant a x b := by
  rcases a with _ | va
  · rcases x with _ | vx
    · rcases b with _ | vb
      · rfl
      · have h1 : (-1 : ℚ) < vb := hb vb rfl
        have h2 : ¬ ((-1 : ℚ) < -1) := by norm_num
        simp [dominant, specDominant, keyV, h1, h2]
    · have h1 : (-1 : ℚ) < vx := hx vx rfl
      rcases b with _ | vb
      · have h2 : ¬ (vx < (-1 : ℚ)) := by linarith
        simp [dominant, specDominant, keyV, h1, h2]
      · by_cases hcmp : vx < vb <;>
          simp [dominant, specDominant, keyV, h1, hcmp]
  · have ha1 : (-1 : ℚ) < va := ha va rfl
    have ha2 : ¬ (va < (-1 : ℚ)) := by linarith
    rcases x with _ | vx
    · rcases b with _ | vb
      · simp [dominant, specDominant, keyV, ha2]
      · by_cases hcmp : va < vb <;>
          simp [dominant, specDominant, keyV, ha2, hcmp]
    · have hx1 : (-1 : ℚ) < vx := hx vx rfl
      have hx2 : ¬ (vx < (-1 : ℚ)) := by linarith
      rcases b with _ | vb
      · by_cases hcmp : va < vx <;>
          simp [dominant, specDominant, keyV, hcmp, ha2, hx2]
      · by_cases h1 : va < vx
        · by_cases h2 : vx < vb <;>
            simp [dominant, specDominant, keyV, h1, h2]
        · by_cases h2 : va < vb <;>
            simp [dominant, specDominant, keyV, h1, h2]

/-- Witness for `dominant_spec_of_pos` at the spec's walk-through triple
92 / 5 / 3: the source selection and the spec selection agree. -/
theorem dominant_spec_of_pos_witness :
    dominant (some 92) (some 5) (some 3) = specDominant (some 92) (some 5) (some 3) :=
  dominant_spec_of_pos _ _ _
    (by intro v hv; cases hv; norm_num)
    (by intro v hv; cases hv; norm_num)
    (by intro v hv; cases hv; norm_num)


/-- The head surviving a `dropWhile` fails the dropped predicate. -/
theorem head?_dropWhile_not (p : Nat → Bool) (l : PyStr) {c : Nat}
    (h : (l.dropWhile p).head? = some c) : p c = false := by
  induction l with
  | nil => simp at h
  | cons a t ih =>
    rw [List.dropWhile_cons] at h
    by_cases hp : p a = true
    · rw [if_pos hp] at h
      exact ih h
    · rw [if_neg hp] at h
      simp at h
      subst h
      simp at hp
      exact hp

/-- Whitespace collapsing never empties a nonempty string. -/
theorem collapseWsF_ne_nil (fuel : Nat) : ∀ l : PyStr, l ≠ [] → collapseWsF fuel l ≠ [] := by
  induction fuel with
  | zero => intro l h; simpa [collapseWsF]
  | succ n ih =>
    intro l h
    rcases l with _ | ⟨c0, _ | ⟨c1, rest⟩⟩
    · exact absurd rfl h
    · simp [collapseWsF]
    · rw [collapseWsF]
      by_cases hsp : (isPySpace c0 && isPySpace c1) = true
      · rw [if_pos hsp]
        exact ih _ (by simp)
      · rw [if_neg hsp]
        simp

/-- The head of a collapsed string comes from a head of the original with
the same whitespace status. -/
theorem head?_collapseWsF (fuel : Nat) : ∀ (l : PyStr) (c : Nat),
    (collapseWsF fuel l).head? = some c →
    ∃ d, l.head? = some d ∧ isPySpace d = isPySpace c := by
  induction fuel with
  | zero =>
    intro l c h
    rw [show collapseWsF 0 l = l from by rcases l with _ | ⟨c0, _ | ⟨c1, rest⟩⟩ <;> rfl] at h
    exact ⟨c, h, rfl⟩
  | succ n ih =>
    intro l c h
    rcases l with _ | ⟨c0, _ | ⟨c1, rest⟩⟩
    · simp [collapseWsF] at h
    · simp [collapseWsF] at h
      exact ⟨c0, rfl, by rw [h]⟩
    · rw [collapseWsF] at h
      by_cases hsp : (isPySpace c0 && isPySpace c1) = true
      · rw [if_pos hsp] at h
        obtain ⟨d, hd, hde⟩ := ih _ _ h
        simp at hd
        have hsp2 : isPySpace c0 = true ∧ isPySpace c1 = true := by
          rw [Bool.and_eq_true] at hsp
          exact hsp
        refine ⟨c0, rfl, ?_⟩
        rw [hsp2.1, ← hde, ← hd]
        rfl
      · rw [if_neg hsp] at h
        simp at h
        exact ⟨c0, rfl, by rw [h]⟩

/-- The last character of a collapsed string comes from a last character of
the original with the same whitespace status. -/
theorem getLast?_collapseWsF (fuel : Nat) : ∀ (l : PyStr) (c : Nat),
    (collapseWsF fuel l).getLast? = some c →
    ∃ d, l.getLast? = some d ∧ isPySpace d = isPySpace c := by
  induction fuel with
  | zero =>
    intro l c h
    rw [show collapseWsF 0 l = l from by rcases l with _ | ⟨c0, _ | ⟨c1, rest⟩⟩ <;> rfl] at h
    exact ⟨c, h, rfl⟩
  | succ n ih =>
    intro l c h
    rcases l with _ | ⟨c0, _ | ⟨c1, rest⟩⟩
    · simp [collapseWsF] at h
    · simp [collapseWsF] at h
      exact ⟨c0, by simp, by rw [h]⟩
    · rw [collapseWsF] at h
      by_cases hsp : (isPySpace c0 && isPySpace c1) = true
      · rw [if_pos hsp] at h
        obtain ⟨d, hd, hde⟩ := ih _ _ h
        rcases rest with _ | ⟨r0, rs⟩
        · simp at hd
          have hsp2 : isPySpace c0 = true ∧ isPySpace c1 = true := by
            rw [Bool.and_eq_true] at hsp
            exact hsp
          refine ⟨c1, by simp, ?_⟩
          rw [hsp2.2, ← hde, ← hd]
          rfl
        · rw [List.getLast?_cons_cons] at hd
          exact ⟨d, by rw [List.getLast?_cons_cons, List.getLast?_cons_cons]; exact hd, hde⟩
      · rw [if_neg hsp] at h
        rcases hTl : collapseWsF n (c1 :: rest) with _ | ⟨t0, ts⟩
        · exact absurd hTl (collapseWsF_ne_nil n _ (by simp))
        · rw [hTl, List.getLast?_cons_cons] at h
          obtain ⟨d, hd, hde⟩ := ih (c1 :: rest) c (by rw [hTl]; exact h)
          exact ⟨d, by rw [List.getLast?_cons_cons]; exact hd, hde⟩

/-- A collapsed string never contains two adjacent whitespace characters. -/
theorem chain'_collapseWsF (fuel : Nat) : ∀ l : PyStr, l.length ≤ fuel →
    List.Chain' (fun a b => ¬(isPySpace a = true ∧ isPySpace b = true))
      (collapseWsF fuel l) := by
  induction fuel with
  | zero =>
    intro l hl
    have hnil : l = [] := List.length_eq_zero.mp (Nat.le_zero.mp hl)
    subst hnil
    simp [collapseWsF]
  | succ n ih =>
    intro l hl
    rcases l with _ | ⟨c0, _ | ⟨c1, rest⟩⟩
    · simp [collapseWsF]
    · simp [collapseWsF]
    · rw [collapseWsF]
      by_cases hsp : (isPySpace c0 && isPySpace c1) = true
      · rw [if_pos hsp]
        exact ih _ (by simp at hl ⊢; omega)
      · rw [if_neg hsp]
        rw [List.chain'_cons']
        refine ⟨?_, ih _ (by simp at hl ⊢; omega)⟩
        intro b hb
        obtain ⟨d, hd, hde⟩ := head?_collapseWsF n _ b hb
        simp at hd
        rintro ⟨hc0, hcb⟩
        apply hsp
        rw [Bool.and_eq_true]
        exact ⟨hc0, by rw [← hd] at hde; rw [hde]; exact hcb⟩

/-- A string with no two adjacent whitespace characters is a fixed point of
whitespace collapsing. -/
theorem collapseWsF_eq_self (fuel : Nat) : ∀ l : PyStr, l.length ≤ fuel →
    List.Chain' (fun a b => ¬(isPySpace a = true ∧ isPySpace b = true)) l →
    collapseWsF fuel l = l := by
  induction fuel with
  | zero =>
    intro l hl _
    have hnil : l = [] := List.length_eq_zero.mp (Nat.le_zero.mp hl)
    subst hnil
    rfl
  | succ n ih =>
    intro l hl hch
    rcases l with _ | ⟨c0, _ | ⟨c1, rest⟩⟩
    · rfl
    · rfl
    · rw [collapseWsF]
      have hrel := (List.chain'_cons.mp hch).1
      have hnsp : ¬ (isPySpace c0 && isPySpace c1) = true := by
        rw [Bool.and_eq_true]
        exact fun hand => hrel ⟨hand.1, hand.2⟩
      rw [if_neg hnsp]
      congr 1
      exact ih _ (by simp at hl ⊢; omega) (List.chain'_cons.mp hch).2

/-- Collapsing only keeps original characters or introduces plain spaces. -/
theorem mem_collapseWsF (fuel : Nat) : ∀ (l : PyStr) (c : Nat),
    c ∈ collapseWsF fuel l → c ∈ l ∨ c = 32 := by
  induction fuel with
  | zero =>
    intro l c h
    rw [show collapseWsF 0 l = l from by rcases l with _ | ⟨c0, _ | ⟨c1, rest⟩⟩ <;> rfl] at h
    exact Or.inl h
  | succ n ih =>
    intro l c h
    rcases l with _ | ⟨c0, _ | ⟨c1, rest⟩⟩
    · simp [collapseWsF] at h
    · simp [collapseWsF] at h
      simp [h]
    · rw [collapseWsF] at h
      by_cases hsp : (isPySpace c0 && isPySpace c1) = true
      · rw [if_pos hsp] at h
        rcases ih _ _ h with hm | hm
        · rcases List.mem_cons.mp hm with hm2 | hm2
          · exact Or.inr hm2
          · exact Or.inl (by simp [hm2])
        · exact Or.inr hm
      · rw [if_neg hsp] at h
        rcases List.mem_cons.mp h with hm | hm
        · exact Or.inl (by simp [hm])
        · rcases ih _ _ hm with hm2 | hm2
          · exact Or.inl (List.mem_cons_of_mem c0 hm2)
          · exact Or.inr hm2

/-- The suffix-token substitution returns a prefix of its input. -/
theorem subSpTok_append (a b : Nat) (l : PyStr) : ∃ t, l = subSpTok a b l ++ t := by
  rw [subSpTok]
  by_cases h : endsSpTok a b l = true
  · rw [if_pos h]
    refine ⟨((l.reverse.drop 2).takeWhile isPySpace).reverse ++ (l.reverse.take 2).reverse, ?_⟩
    conv_lhs => rw [← List.reverse_reverse l, ← List.take_append_drop 2 l.reverse,
      ← List.takeWhile_append_dropWhile isPySpace (l.reverse.drop 2)]
    rw [List.reverse_append, List.reverse_append]
    simp [List.append_assoc]
  · rw [if_neg h]
    exact ⟨[], by simp⟩

/-- The suffix-token substitution preserves the head character. -/
theorem head?_subSpTok (a b : Nat) (l : PyStr) (c : Nat)
    (h : (subSpTok a b l).head? = some c) : l.head? = some c := by
  obtain ⟨t, ht⟩ := subSpTok_append a b l
  rw [ht]
  rcases hres : subSpTok a b l with _ | ⟨r0, rs⟩
  · rw [hres] at h
    simp at h
  · rw [hres] at h
    simp at h
    simp [h]

/-- The suffix-token substitution only keeps original characters. -/
theorem mem_subSpTok (a b : Nat) (l : PyStr) (c : Nat) (h : c ∈ subSpTok a b l) : c ∈ l := by
  obtain ⟨t, ht⟩ := subSpTok_append a b l
  rw [ht]
  exact List.mem_append_left t h

/-- The suffix-token substitution preserves the absence of trailing
whitespace. -/
theorem getLast?_subSpTok_sp (a b : Nat) (l : PyStr)
    (hl : ∀ c, l.getLast? = some c → isPySpace c = false) :
    ∀ c, (subSpTok a b l).getLast? = some c → isPySpace c = false := by
  intro c h
  rw [subSpTok] at h
  by_cases hg : endsSpTok a b l = true
  · rw [if_pos hg] at h
    rw [List.getLast?_reverse] at h
    exact head?_dropWhile_not _ _ h
  · rw [if_neg hg] at h
    exact hl c h

/-- Right-stripping returns a prefix of its input. -/
theorem rstripPy_append (m : PyStr) : ∃ t, m = rstripPy m ++ t := by
  refine ⟨(m.reverse.takeWhile isPySpace).reverse, ?_⟩
  rw [rstripPy]
  conv_lhs => rw [← List.reverse_reverse m,
    ← List.takeWhile_append_dropWhile isPySpace m.reverse]
  rw [List.reverse_append]

/-- Right-stripping preserves the head character. -/
theorem head?_rstrip_imp (m : PyStr) (c : Nat) (h : (rstripPy m).head? = some c) :
    m.head? = some c := by
  obtain ⟨t, ht⟩ := rstripPy_append m
  rw [ht]
  rcases hres : rstripPy m with _ | ⟨r0, rs⟩
  · rw [hres] at h
    simp at h
  · rw [hres] at h
    simp at h
    simp [h]

/-- A stripped string does not start with whitespace. -/
theorem head?_stripPy (l : PyStr) (c : Nat) (h : (stripPy l).head? = some c) :
    isPySpace c = false := by
  have h2 := head?_rstrip_imp _ _ h
  exact head?_dropWhile_not _ _ h2

/-- A right-stripped string does not end with whitespace. -/
theorem getLast?_rstripPy (m : PyStr) (c : Nat) (h : (rstripPy m).getLast? = some c) :
    isPySpace c = false := by
  rw [rstripPy, List.getLast?_reverse] at h
  exact head?_dropWhile_not _ _ h

/-- Lowercasing a code point is idempotent. -/
theorem toLowerPy_idem (c : Nat) : toLowerPy (toLowerPy c) = toLowerPy c := by
  simp only [toLowerPy]
  split_ifs <;> omega

/-- Lowercasing does not change whether a code point is whitespace. -/
theorem isPySpace_toLowerPy (c : Nat) : isPySpace (toLowerPy c) = isPySpace c := by
  simp only [toLowerPy]
  split_ifs with h
  · have hA : isPySpace (c + 32) = false := by
      simp [isPySpace]
      omega
    have hB : isPySpace c = false := by
      simp [isPySpace]
      omega
    rw [hA, hB]
  · rfl

/-- Mapping a function that fixes every member is the identity. -/
theorem map_id_of_fix {f : Nat → Nat} : ∀ l : PyStr, (∀ c ∈ l, f c = c) → l.map f = l := by
  intro l h
  induction l with
  | nil => rfl
  | cons a t ih =>
    rw [List.map_cons, h a (List.mem_cons_self a t),
      ih (fun c hc => h c (List.mem_cons_of_mem a hc))]

/-- A string with a non-whitespace head is a fixed point of left-stripping. -/
theorem lstripPy_eq_self (l : PyStr)
    (h : ∀ c, l.head? = some c → isPySpace c = false) : lstripPy l = l := by
  rcases l with _ | ⟨a, t⟩
  · rfl
  · rw [lstripPy, List.dropWhile_cons, if_neg]
    simp [h a rfl]

/-- A string with a non-whitespace last character is a fixed point of
right-stripping. -/
theorem rstripPy_eq_self (l : PyStr)
    (h : ∀ c, l.getLast? = some c → isPySpace c = false) : rstripPy l = l := by
  rw [rstripPy]
  have h2 : l.reverse.dropWhile isPySpace = l.reverse := by
    rcases hrev : l.reverse with _ | ⟨a, t⟩
    · rfl
    · rw [List.dropWhile_cons, if_neg]
      have ha : l.getLast? = some a := by
        rw [← List.head?_reverse, hrev]
        rfl
      simp [h a ha]
  rw [h2, List.reverse_reverse]

/-- Every normalized team name starts and ends with non-whitespace, is
lowercase-fixed, and has no two adjacent whitespace characters. -/
theorem norm_team_facts (l : PyStr) :
    (∀ c, (norm_team l).head? = some c → isPySpace c = false) ∧
    (∀ c, (norm_team l).getLast? = some c → isPySpace c = false) ∧
    (∀ c ∈ norm_team l, toLowerPy c = c) ∧
    List.Chain' (fun a b => ¬(isPySpace a = true ∧ isPySpace b = true)) (norm_team l) := by
  have hleadW : ∀ c, (lowerPy (stripPy l)).head? = some c → isPySpace c = false := by
    intro c hc
    rw [lowerPy, List.head?_map] at hc
    rcases hst : (stripPy l).head? with _ | d
    · rw [hst] at hc
      simp at hc
    · rw [hst] at hc
      simp at hc
      rw [← hc, isPySpace_toLowerPy]
      exact head?_stripPy l d hst
  have htrailW : ∀ c, (lowerPy (stripPy l)).getLast? = some c → isPySpace c = false := by
    intro c hc
    rw [lowerPy, List.getLast?_map] at hc
    rcases hst : (stripPy l).getLast? with _ | d
    · rw [hst] at hc
      simp at hc
    · rw [hst] at hc
      simp at hc
      rw [← hc, isPySpace_toLowerPy]
      exact getLast?_rstripPy (lstripPy l) d hst
  have hleadZ : ∀ c,
      (subSpTok 99 102 (subSpTok 102 99 (lowerPy (stripPy l)))).head? = some c →
      isPySpace c = false := by
    intro c hc
    exact hleadW c (head?_subSpTok _ _ _ _ (head?_subSpTok _ _ _ _ hc))
  have htrailZ : ∀ c,
      (subSpTok 99 102 (subSpTok 102 99 (lowerPy (stripPy l)))).getLast? = some c →
      isPySpace c = false :=
    getLast?_subSpTok_sp _ _ _ (getLast?_subSpTok_sp _ _ _ htrailW)
  have hlowW : ∀ c ∈ lowerPy (stripPy l), toLowerPy c = c := by
    intro c hc
    obtain ⟨d, _, rfl⟩ := List.mem_map.mp hc
    exact toLowerPy_idem d
  refine ⟨?_, ?_, ?_, ?_⟩
  · intro c hc
    obtain ⟨d, hd, hde⟩ := head?_collapseWsF _ _ _ hc
    rw [← hde]
    exact hleadZ d hd
  · intro c hc
    obtain ⟨d, hd, hde⟩ := getLast?_collapseWsF _ _ _ hc
    rw [← hde]
    exact htrailZ d hd
  · intro c hc
    rcases mem_collapseWsF _ _ _ hc with hm | hm
    · exact hlowW c (mem_subSpTok _ _ _ _ (mem_subSpTok _ _ _ _ hm))
    · subst hm
      decide
  · exact chain'_collapseWsF _ _ le_rfl

/-- C6 amended: the team normalizer is idempotent on every input whose
normalized form ends in neither a " fc" nor a " cf" token; only inputs
like "x fc cf" or "x cf cf", where removing one suffix token exposes
another, lose more on a second application. -/
theorem norm_team_idem_cond (l : PyStr)
    (hfc : endsSpTok 102 99 (norm_team l) = false)
    (hcf : endsSpTok 99 102 (norm_team l) = false) :
    norm_team (norm_team l) = norm_team l := by
  obtain ⟨hlead, htrail, hlow, hchain⟩ := norm_team_facts l
  have s1 : stripPy (norm_team l) = norm_team l := by
    rw [stripPy, lstripPy_eq_self _ hlead]
    exact rstripPy_eq_self _ htrail
  have s2 : lowerPy (norm_team l) = norm_team l := map_id_of_fix _ hlow
  have s3 : subSpTok 102 99 (norm_team l) = norm_team l := by
    have hng : ¬ (endsSpTok 102 99 (norm_team l) = true) := by simp [hfc]
    rw [subSpTok, if_neg hng]
  have s4 : subSpTok 99 102 (norm_team l) = norm_team l := by
    have hng : ¬ (endsSpTok 99 102 (norm_team l) = true) := by simp [hcf]
    rw [subSpTok, if_neg hng]
  have s5 : collapseWs (norm_team l) = norm_team l := by
    rw [collapseWs]
    exact collapseWsF_eq_self _ _ le_rfl hchain
  calc norm_team (norm_team l)
      = collapseWs (subSpTok 99 102 (subSpTok 102 99 (lowerPy (stripPy (norm_team l))))) := rfl
    _ = norm_team l := by rw [s1, s2, s3, s4, s5]

/-- C6 counterexample: the team normalizer is not idempotent — one pass
over "milan fc cf" removes only the trailing " cf" and leaves "milan fc",
which a second pass shortens again to "milan". -/
theorem norm_team_not_idem_cex :
    norm_team (ofStr "milan fc cf") = ofStr "milan fc" ∧
    norm_team (norm_team (ofStr "milan fc cf")) = ofStr "milan" ∧
    norm_team (norm_team (ofStr "milan fc cf")) ≠ norm_team (ofStr "milan fc cf") := by
  refine ⟨rfl, rfl, ?_⟩
  decide

/-- Witness for `norm_team_idem_cond` at a name with no removable suffix. -/
theorem norm_team_idem_cond_witness :
    norm_team (norm_team (ofStr "arsenal")) = norm_team (ofStr "arsenal") :=
  norm_team_idem_cond (ofStr "arsenal") (by decide) (by decide)

/-- The head of an append with a nonempty left part is the left head. -/
theorem head?_append_left {α : Type} (l1 l2 : List α) (h : l1 ≠ []) :
    (l1 ++ l2).head? = l1.head? := by
  rcases l1 with _ | ⟨a, t⟩
  · exact absurd rfl h
  · rfl

/-- The last element of an append with a nonempty right part is the right
last element. -/
theorem getLast?_append_tail {α : Type} (l1 l2 : List α) (h : l2 ≠ []) :
    (l1 ++ l2).getLast? = l2.getLast? := by
  rw [← List.head?_reverse, List.reverse_append,
    head?_append_left _ _ (by simpa using h), List.head?_reverse]

/-- A string with a known non-whitespace last character satisfies the
no-trailing-whitespace condition. -/
theorem last_cond_of_eq (T : PyStr) (d : Nat) (hT : T.getLast? = some d)
    (hd : isPySpace d = false) :
    ∀ c, T.getLast? = some c → isPySpace c = false := by
  intro c hc
  rw [hT] at hc
  injection hc with h
  subst h
  exact hd

/-- The anchored suffix substitution removes exactly one trailing
space-plus-token occurrence: appending one such token to any string with no
trailing whitespace and substituting gives the string back. -/
theorem subSpTok_strip_one (a b : Nat) (u : PyStr)
    (hu : ∀ c, u.getLast? = some c → isPySpace c = false) :
    subSpTok a b (u ++ [32, a, b]) = u := by
  have hg : endsSpTok a b (u ++ [32, a, b]) = true := by
    rw [endsSpTok, List.reverse_append]
    simp [isPySpace]
  rw [subSpTok, if_pos hg, List.reverse_append]
  show (((([32, a, b] : PyStr).reverse ++ u.reverse).drop 2).dropWhile isPySpace).reverse = u
  rw [show (([32, a, b] : PyStr).reverse ++ u.reverse) = b :: a :: 32 :: u.reverse from rfl]
  rw [show (b :: a :: 32 :: u.reverse).drop 2 = 32 :: u.reverse from rfl]
  rw [List.dropWhile_cons, if_pos (by rfl)]
  have hdw : u.reverse.dropWhile isPySpace = u.reverse := by
    have := lstripPy_eq_self u.reverse (fun c hc => hu c (by rw [← List.head?_reverse]; exact hc))
    exact this
  rw [hdw, List.reverse_reverse]

/-- The suffix-token guard cannot fire when the last character differs from
the token's final character. -/
theorem endsSpTok_false_of_last (a bb : Nat) (l : PyStr) (c : Nat)
    (hl : l.getLast? = some c) (hne : (c == bb) = false) :
    endsSpTok a bb l = false := by
  have h2 : l.reverse.head? = some c := by
    rw [List.head?_reverse]
    exact hl
  rcases hrev : l.reverse with _ | ⟨c2, rest⟩
  · rw [hrev] at h2
    simp at h2
  · rw [hrev] at h2
    simp at h2
    rw [endsSpTok, hrev]
    subst h2
    rcases rest with _ | ⟨c1, _ | ⟨c0, r⟩⟩
    · rfl
    · rfl
    · simp [hne]

/-- C10: for every nonempty normalized base name (no surrounding whitespace,
lowercase-fixed, no doubled whitespace), one call of the team normalizer
removes at most one trailing " fc" token and then at most one trailing
" cf" token, in that fixed order: a name ending in " cf fc" loses both
suffixes in one application, a name ending in " fc cf" keeps its " fc",
and a doubled token loses only its last copy. -/
theorem norm_team_one_token_each (u : PyStr) (hne : u ≠ [])
    (hhead : ∀ c, u.head? = some c → isPySpace c = false)
    (hlast : ∀ c, u.getLast? = some c → isPySpace c = false)
    (hlow : ∀ c ∈ u, toLowerPy c = c)
    (hchain : List.Chain' (fun a b => ¬(isPySpace a = true ∧ isPySpace b = true)) u) :
    norm_team (u ++ ofStr " cf fc") = u ∧
    norm_team (u ++ ofStr " fc cf") = u ++ ofStr " fc" ∧
    norm_team (u ++ ofStr " fc fc") = u ++ ofStr " fc" ∧
    norm_team (u ++ ofStr " cf cf") = u ++ ofStr " cf" := by
  have hstr : ∀ (T : PyStr), T ≠ [] →
      (∀ c, T.getLast? = some c → isPySpace c = false) →
      stripPy (u ++ T) = u ++ T := by
    intro T hT1 hT2
    have hh : ∀ c, (u ++ T).head? = some c → isPySpace c = false := by
      intro c hc
      rw [head?_append_left u T hne] at hc
      exact hhead c hc
    have hl2 : ∀ c, (u ++ T).getLast? = some c → isPySpace c = false := by
      intro c hc
      rw [getLast?_append_tail u T hT1] at hc
      exact hT2 c hc
    rw [stripPy, lstripPy_eq_self _ hh]
    exact rstripPy_eq_self _ hl2
  have hlower : ∀ (T : PyStr), List.map toLowerPy T = T → lowerPy (u ++ T) = u ++ T := by
    intro T hT
    rw [lowerPy, List.map_append, hT, map_id_of_fix u hlow]
  have hcoll : ∀ (T : PyStr),
      List.Chain' (fun a b => ¬(isPySpace a = true ∧ isPySpace b = true)) T →
      collapseWs (u ++ T) = u ++ T := by
    intro T hTchain
    rw [collapseWs]
    apply collapseWsF_eq_self _ _ le_rfl
    rw [List.chain'_append]
    refine ⟨hchain, hTchain, ?_⟩
    intro x hx y _ hxy
    exact absurd hxy.1 (by simp [hlast x (Option.mem_def.mp hx)])
  have hchainfc : List.Chain' (fun a b => ¬(isPySpace a = true ∧ isPySpace b = true))
      (ofStr " fc") := by
    simp [List.chain'_cons, isPySpace, ofStr]
  have hchaincf : List.Chain' (fun a b => ¬(isPySpace a = true ∧ isPySpace b = true))
      (ofStr " cf") := by
    simp [List.chain'_cons, isPySpace, ofStr]
  have hcollu : collapseWs u = u := by
    rw [collapseWs]
    exact collapseWsF_eq_self _ _ le_rfl hchain
  refine ⟨?_, ?_, ?_, ?_⟩
  · -- " cf fc": the fc substitution removes " fc", then the cf one removes " cf"
    have s1 := hstr (ofStr " cf fc") (by decide) (last_cond_of_eq _ 99 rfl rfl)
    have s2 := hlower (ofStr " cf fc") rfl
    have s3 : subSpTok 102 99 (u ++ ofStr " cf fc") = u ++ ofStr " cf" := by
      rw [show u ++ ofStr " cf fc" = (u ++ ofStr " cf") ++ [32, 102, 99] from by
        rw [List.append_assoc]; rfl]
      refine subSpTok_strip_one 102 99 _ (last_cond_of_eq _ 102 ?_ rfl)
      rw [getLast?_append_tail u (ofStr " cf") (by decide)]
      rfl
    have s4 : subSpTok 99 102 (u ++ ofStr " cf") = u := by
      rw [show u ++ ofStr " cf" = u ++ [32, 99, 102] from rfl]
      exact subSpTok_strip_one 99 102 u hlast
    show collapseWs (subSpTok 99 102 (subSpTok 102 99
      (lowerPy (stripPy (u ++ ofStr " cf fc"))))) = u
    rw [s1, s2, s3, s4, hcollu]
  · -- " fc cf": the fc substitution does not fire, the cf one removes " cf"
    have s1 := hstr (ofStr " fc cf") (by decide) (last_cond_of_eq _ 102 rfl rfl)
    have s2 := hlower (ofStr " fc cf") rfl
    have hlT : (u ++ ofStr " fc cf").getLast? = some 102 := by
      rw [getLast?_append_tail u (ofStr " fc cf") (by decide)]
      rfl
    have s3 : subSpTok 102 99 (u ++ ofStr " fc cf") = u ++ ofStr " fc cf" := by
      have hf := endsSpTok_false_of_last 102 99 (u ++ ofStr " fc cf") 102 hlT rfl
      rw [subSpTok, if_neg (by simp [hf])]
    have s4 : subSpTok 99 102 (u ++ ofStr " fc cf") = u ++ ofStr " fc" := by
      rw [show u ++ ofStr " fc cf" = (u ++ ofStr " fc") ++ [32, 99, 102] from by
        rw [List.append_assoc]; rfl]
      refine subSpTok_strip_one 99 102 _ (last_cond_of_eq _ 99 ?_ rfl)
      rw [getLast?_append_tail u (ofStr " fc") (by decide)]
      rfl
    show collapseWs (subSpTok 99 102 (subSpTok 102 99
      (lowerPy (stripPy (u ++ ofStr " fc cf"))))) = u ++ ofStr " fc"
    rw [s1, s2, s3, s4, hcoll _ hchainfc]
  · -- " fc fc": the fc substitution removes one " fc", the cf one does not fire
    have s1 := hstr (ofStr " fc fc") (by decide) (last_cond_of_eq _ 99 rfl rfl)
    have s2 := hlower (ofStr " fc fc") rfl
    have s3 : subSpTok 102 99 (u ++ ofStr " fc fc") = u ++ ofStr " fc" := by
      rw [show u ++ ofStr " fc fc" = (u ++ ofStr " fc") ++ [32, 102, 99] from by
        rw [List.append_assoc]; rfl]
      refine subSpTok_strip_one 102 99 _ (last_cond_of_eq _ 99 ?_ rfl)
      rw [getLast?_append_tail u (ofStr " fc") (by decide)]
      rfl
    have hlT : (u ++ ofStr " fc").getLast? = some 99 := by
      rw [getLast?_append_tail u (ofStr " fc") (by decide)]
      rfl
    have s4 : subSpTok 99 102 (u ++ ofStr " fc") = u ++ ofStr " fc" := by
      have hf := endsSpTok_false_of_last 99 102 (u ++ ofStr " fc") 99 hlT rfl
      rw [subSpTok, if_neg (by simp [hf])]
    show collapseWs (subSpTok 99 102 (subSpTok 102 99
      (lowerPy (stripPy (u ++ ofStr " fc fc"))))) = u ++ ofStr " fc"
    rw [s1, s2, s3, s4, hcoll _ hchainfc]
  · -- " cf cf": the fc substitution does not fire, the cf one removes one " cf"
    have s1 := hstr (ofStr " cf cf") (by decide) (last_cond_of_eq _ 102 rfl rfl)
    have s2 := hlower (ofStr " cf cf") rfl
    have hlT : (u ++ ofStr " cf cf").getLast? = some 102 := by
      rw [getLast?_append_tail u (ofStr " cf cf") (by decide)]
      rfl
    have s3 : subSpTok 102 99 (u ++ ofStr " cf cf") = u ++ ofStr " cf cf" := by
      have hf := endsSpTok_false_of_last 102 99 (u ++ ofStr " cf cf") 102 hlT rfl
      rw [subSpTok, if_neg (by simp [hf])]
    have s4 : subSpTok 99 102 (u ++ ofStr " cf cf") = u ++ ofStr " cf" := by
      rw [show u ++ ofStr " cf cf" = (u ++ ofStr " cf") ++ [32, 99, 102] from by
        rw [List.append_assoc]; rfl]
      refine subSpTok_strip_one 99 102 _ (last_cond_of_eq _ 102 ?_ rfl)
      rw [getLast?_append_tail u (ofStr " cf") (by decide)]
      rfl
    show collapseWs (subSpTok 99 102 (subSpTok 102 99
      (lowerPy (stripPy (u ++ ofStr " cf cf"))))) = u ++ ofStr " cf"
    rw [s1, s2, s3, s4, hcoll _ hchaincf]

/-- Witness for `norm_team_one_token_each` at the base name "milan",
recovering the spec's concrete examples "milan cf fc" to "milan" and
"milan fc cf" to "milan fc". -/
theorem norm_team_one_token_each_witness :
    norm_team (ofStr "milan" ++ ofStr " cf fc") = ofStr "milan" ∧
    norm_team (ofStr "milan" ++ ofStr " fc cf") = ofStr "milan" ++ ofStr " fc" ∧
    norm_team (ofStr "milan" ++ ofStr " fc fc") = ofStr "milan" ++ ofStr " fc" ∧
    norm_team (ofStr "milan" ++ ofStr " cf cf") = ofStr "milan" ++ ofStr " cf" :=
  norm_team_one_token_each (ofStr "milan") (by decide)
    (by
      intro c hc
      rw [show (ofStr "milan").head? = some 109 from rfl] at hc
      injection hc with h
      subst h
      rfl)
    (by
      intro c hc
      rw [show (ofStr "milan").getLast? = some 110 from rfl] at hc
      injection hc with h
      subst h
      rfl)
    (by decide)
    (by simp [List.chain'_cons, isPySpace, ofStr])
